import Mathlib

/-!
Verification of the page-collection interaction model of a PDF page editor,
shallowly embedded from the source (`src/gui.py`): the selection state machine
(`_on_click`), the drag-and-drop relocation (`_on_release`), the drop-index
resolution over slot geometry (`_compute_drop_index`), and the export assembly
(`_export_pdf`).  Python ints are modelled by `Int`, Python lists by `List`,
raised exceptions by `Option`/`Except`.
-/

namespace PDFPageEditor

/-! ### Python list primitives -/

/-- Resolves a Python list index against a list of length `n`: a negative index
counts from the end, and `none` models a raised `IndexError`. -/
def pyResolve (n : ℕ) (i : ℤ) : Option ℕ :=
  if 0 ≤ i then (if i < (n : ℤ) then some i.toNat else none)
  else (if 0 ≤ (n : ℤ) + i then some ((n : ℤ) + i).toNat else none)

/-- Models Python list subscription `l[i]`. -/
def pyGet {α : Type} (l : List α) (i : ℤ) : Option α :=
  (pyResolve l.length i).bind fun k => l[k]?

/-- Models the Python statement `del l[i]`. -/
def pyDelete {α : Type} (l : List α) (i : ℤ) : Option (List α) :=
  (pyResolve l.length i).map fun k => l.eraseIdx k

/-- Models Python `l.insert(i, x)`: the index is clamped into `[0, len(l)]`
(a negative index counts from the end) and never raises. -/
def pyInsert {α : Type} (l : List α) (i : ℤ) (x : α) : List α :=
  let k := (min (if i < 0 then (l.length : ℤ) + i else i) (l.length : ℤ)).toNat
  l.take k ++ x :: l.drop k

/-- Models Python `list(range(a, b))`. -/
def pyRange (a b : ℤ) : List ℤ :=
  (List.range (b - a).toNat).map fun k : ℕ => a + (k : ℤ)

/-- One step of insertion sort on an ascending list of ints. -/
def insertSorted (x : ℤ) : List ℤ → List ℤ
  | [] => [x]
  | y :: ys => if x ≤ y then x :: y :: ys else y :: insertSorted x ys

/-- Models Python `sorted(l)` on a list of ints (ascending order).  Implemented
as insertion sort, which agrees extensionally with any comparison sort of
integers. -/
def pySorted (l : List ℤ) : List ℤ := l.foldr insertSorted []

theorem insertSorted_perm (x : ℤ) (l : List ℤ) :
    List.Perm (insertSorted x l) (x :: l) := by
  induction l with
  | nil => exact List.Perm.refl _
  | cons y ys ih =>
    simp only [insertSorted]
    split
    · exact List.Perm.refl _
    · exact List.Perm.trans (ih.cons y) (List.Perm.swap x y ys)

theorem pySorted_perm (l : List ℤ) : List.Perm (pySorted l) l := by
  induction l with
  | nil => exact List.Perm.refl _
  | cons y ys ih =>
    exact List.Perm.trans (insertSorted_perm y (pySorted ys)) (ih.cons y)

theorem mem_pySorted {a : ℤ} {l : List ℤ} : a ∈ pySorted l ↔ a ∈ l :=
  (pySorted_perm l).mem_iff

theorem length_pySorted (l : List ℤ) : (pySorted l).length = l.length :=
  (pySorted_perm l).length_eq

theorem nodup_pySorted {l : List ℤ} (h : l.Nodup) : (pySorted l).Nodup :=
  ((pySorted_perm l).nodup_iff).mpr h

theorem pairwise_le_insertSorted {x : ℤ} {l : List ℤ}
    (h : l.Pairwise (· ≤ ·)) : (insertSorted x l).Pairwise (· ≤ ·) := by
  induction l with
  | nil => simp [insertSorted]
  | cons y ys ih =>
    rcases List.pairwise_cons.mp h with ⟨hy, hys⟩
    simp only [insertSorted]
    split
    · rename_i hxy
      refine List.pairwise_cons.mpr ⟨?_, h⟩
      intro z hz
      rcases List.mem_cons.mp hz with rfl | hz
      · exact hxy
      · exact le_trans hxy (hy z hz)
    · rename_i hxy
      refine List.pairwise_cons.mpr ⟨?_, ih hys⟩
      intro z hz
      rcases List.mem_cons.mp ((insertSorted_perm x ys).mem_iff.mp hz) with rfl | h1
      · exact le_of_lt (not_le.mp hxy)
      · exact hy z h1

theorem pairwise_le_pySorted (l : List ℤ) : (pySorted l).Pairwise (· ≤ ·) := by
  induction l with
  | nil => exact List.Pairwise.nil
  | cons y ys ih => exact pairwise_le_insertSorted ih

/-- On a duplicate-free list, the ascending sort is strictly ascending. -/
theorem pairwise_lt_pySorted {l : List ℤ} (h : l.Nodup) :
    (pySorted l).Pairwise (· < ·) := by
  have h1 : (pySorted l).Pairwise (fun a b : ℤ => a ≤ b ∧ a ≠ b) :=
    List.pairwise_and_iff.mpr ⟨pairwise_le_pySorted l, nodup_pySorted h⟩
  exact h1.imp fun hab => lt_of_le_of_ne hab.1 hab.2

theorem mem_pyRange {i a b : ℤ} : i ∈ pyRange a b ↔ a ≤ i ∧ i < b := by
  simp only [pyRange, List.mem_map, List.mem_range]
  constructor
  · rintro ⟨k, hk, rfl⟩
    omega
  · rintro ⟨h1, h2⟩
    exact ⟨(i - a).toNat, by omega, by omega⟩

theorem length_pyRange (a b : ℤ) : (pyRange a b).length = (b - a).toNat := by
  simp [pyRange]

theorem nodup_pyRange (a b : ℤ) : (pyRange a b).Nodup := by
  refine List.Nodup.map ?_ (List.nodup_range _)
  intro k1 k2 h
  have h1 : a + (k1 : ℤ) = a + (k2 : ℤ) := h
  omega

theorem pairwise_lt_pyRange (a b : ℤ) : (pyRange a b).Pairwise (· < ·) := by
  refine List.Pairwise.map _ (fun k1 k2 h => ?_) (List.pairwise_lt_range _)
  omega

/-! ### Removal and selection of list elements by position -/

/-- Keeps the elements of `l` whose position does not satisfy `f`; the
specification-side description of deleting a set of positions. -/
def removePos {α : Type} : List α → (ℕ → Bool) → List α
  | [], _ => []
  | x :: xs, f =>
    if f 0 then removePos xs (fun j => f (j + 1))
    else x :: removePos xs (fun j => f (j + 1))

/-- Keeps the elements of `l` whose position satisfies `f`. -/
def selectPos {α : Type} : List α → (ℕ → Bool) → List α
  | [], _ => []
  | x :: xs, f =>
    if f 0 then x :: selectPos xs (fun j => f (j + 1))
    else selectPos xs (fun j => f (j + 1))

theorem removePos_cons {α : Type} (x : α) (xs : List α) (f : ℕ → Bool) :
    removePos (x :: xs) f =
      if f 0 then removePos xs (fun j => f (j + 1))
      else x :: removePos xs (fun j => f (j + 1)) := rfl

theorem selectPos_cons {α : Type} (x : α) (xs : List α) (f : ℕ → Bool) :
    selectPos (x :: xs) f =
      if f 0 then x :: selectPos xs (fun j => f (j + 1))
      else selectPos xs (fun j => f (j + 1)) := rfl

theorem removePos_congr {α : Type} (l : List α) {f g : ℕ → Bool}
    (h : ∀ j, f j = g j) : removePos l f = removePos l g := by
  induction l generalizing f g with
  | nil => rfl
  | cons x xs ih =>
    rw [removePos_cons, removePos_cons, h 0, ih (fun j => h (j + 1))]

theorem selectPos_congr {α : Type} (l : List α) {f g : ℕ → Bool}
    (h : ∀ j, f j = g j) : selectPos l f = selectPos l g := by
  induction l generalizing f g with
  | nil => rfl
  | cons x xs ih =>
    rw [selectPos_cons, selectPos_cons, h 0, ih (fun j => h (j + 1))]

theorem removePos_eq_self {α : Type} (l : List α) (f : ℕ → Bool)
    (h : ∀ j, f j = false) : removePos l f = l := by
  induction l generalizing f with
  | nil => rfl
  | cons x xs ih =>
    rw [removePos_cons, h 0]
    simp only [Bool.false_eq_true, if_false]
    rw [ih _ (fun j => h (j + 1))]

/-- Splitting a list into the selected and the remaining positions is a
permutation of the list. -/
theorem selectPos_append_removePos_perm {α : Type} (l : List α) (f : ℕ → Bool) :
    List.Perm (selectPos l f ++ removePos l f) l := by
  induction l generalizing f with
  | nil => exact List.Perm.refl _
  | cons x xs ih =>
    by_cases h : f 0 = true
    · rw [selectPos_cons, removePos_cons, if_pos h, if_pos h]
      exact (ih _).cons x
    · rw [selectPos_cons, removePos_cons, if_neg h, if_neg h]
      exact List.Perm.trans List.perm_middle ((ih _).cons x)

theorem length_selectPos_add_removePos {α : Type} (l : List α) (f : ℕ → Bool) :
    (selectPos l f).length + (removePos l f).length = l.length := by
  have h := (selectPos_append_removePos_perm l f).length_eq
  simpa using h

/-- Erasing one position commutes with removal of a set of lower positions. -/
theorem removePos_eraseIdx {α : Type} (l : List α) (i : ℕ) (f : ℕ → Bool)
    (hi : i < l.length) (hf : ∀ j, i ≤ j → f j = false) :
    removePos (l.eraseIdx i) f = removePos l (fun j => j == i || f j) := by
  induction l generalizing i f with
  | nil => simp at hi
  | cons x xs ih =>
    cases i with
    | zero =>
      simp only [List.eraseIdx_cons_zero]
      rw [removePos_eq_self xs f (fun j => hf j (Nat.zero_le j))]
      simp only [removePos_cons]
      rw [show ((0 : ℕ) == 0 || f 0) = true from rfl]
      simp only [if_true]
      rw [removePos_eq_self xs _ (fun j => by
        rw [hf (j + 1) (Nat.zero_le _)]
        rfl)]
    | succ i =>
      simp only [List.eraseIdx_cons_succ]
      simp only [removePos_cons]
      rw [show ((0 : ℕ) == i + 1 || f 0) = f 0 from rfl]
      have hi2 : i < xs.length := by simpa using hi
      have hstep := ih i (fun j => f (j + 1)) hi2 (fun j hj => hf (j + 1) (by omega))
      have hpred : removePos xs (fun j => j == i || f (j + 1)) =
          removePos xs (fun j => (j + 1) == (i + 1) || f (j + 1)) :=
        removePos_congr xs (fun j => by
          refine Bool.eq_iff_iff.mpr ?_
          simp only [Bool.or_eq_true, beq_iff_eq]
          constructor
          · rintro (h | h)
            · exact Or.inl (by omega)
            · exact Or.inr h
          · rintro (h | h)
            · exact Or.inl (by omega)
            · exact Or.inr h)
      rw [hstep, hpred]

/-! ### The deletion and insertion loops of the relocation -/

/-- Models the loop `for i in reversed(sel): del self.pages[i]` from
`_on_release` (the function is applied to the already-reversed index list);
`none` models a raised `IndexError`. -/
def delLoop {α : Type} : List α → List ℤ → Option (List α)
  | l, [] => some l
  | l, i :: rest =>
    match pyDelete l i with
    | none => none
    | some l2 => delLoop l2 rest

theorem pyResolve_of_nonneg {n : ℕ} {i : ℤ} (h0 : 0 ≤ i) (hn : i < (n : ℤ)) :
    pyResolve n i = some i.toNat := by
  simp [pyResolve, h0, hn]

/-- Correctness of the reversed deletion loop: deleting a strictly descending
list of in-range positions keeps exactly the elements at the other positions. -/
theorem delLoop_eq_removePos {α : Type} (l : List α) (sel : List ℤ)
    (hdesc : sel.Pairwise (· > ·))
    (hmem : ∀ i ∈ sel, 0 ≤ i ∧ i < (l.length : ℤ)) :
    delLoop l sel = some (removePos l (fun j => decide ((j : ℤ) ∈ sel))) := by
  induction sel generalizing l with
  | nil =>
    rw [show delLoop l [] = some l from rfl]
    rw [removePos_eq_self l _ (fun j => by simp)]
  | cons i rest ih =>
    obtain ⟨h0, hN⟩ := hmem i (List.mem_cons_self i rest)
    have hres : pyDelete l i = some (l.eraseIdx i.toNat) := by
      simp [pyDelete, pyResolve_of_nonneg h0 hN]
    have hstep : delLoop l (i :: rest) = delLoop (l.eraseIdx i.toNat) rest := by
      simp only [delLoop, hres]
    rw [hstep]
    have hrest : ∀ b ∈ rest, 0 ≤ b ∧ b < ((l.eraseIdx i.toNat).length : ℤ) := by
      intro b hb
      obtain ⟨hb0, _⟩ := hmem b (List.mem_cons_of_mem i hb)
      have hbi : i > b := (List.pairwise_cons.mp hdesc).1 b hb
      have hlen : (l.eraseIdx i.toNat).length = l.length - 1 := by
        rw [List.length_eraseIdx]
        simp only [if_pos (show i.toNat < l.length by omega)]
      rw [hlen]
      omega
    rw [ih (l.eraseIdx i.toNat) (List.pairwise_cons.mp hdesc).2 hrest]
    congr 1
    rw [removePos_eraseIdx l i.toNat (fun j => decide ((j : ℤ) ∈ rest))
      (by omega)
      (fun j hj => by
        have : ¬ ((j : ℤ) ∈ rest) := by
          intro hmem2
          have hbi : i > (j : ℤ) := (List.pairwise_cons.mp hdesc).1 _ hmem2
          omega
        simpa using this)]
    refine removePos_congr l (fun j => ?_)
    refine Bool.eq_iff_iff.mpr ?_
    simp only [Bool.or_eq_true, beq_iff_eq, decide_eq_true_eq, List.mem_cons]
    constructor
    · rintro (h | h)
      · exact Or.inl (by omega)
      · exact Or.inr h
    · rintro (h | h)
      · exact Or.inl (by omega)
      · exact Or.inr h

/-- Models the loop `for offset, (p, f) in enumerate(zip(pages_to_move, ...)):
self.pages.insert(dest + offset, p)` from `_on_release`. -/
def insertRun {α : Type} : List α → ℤ → List α → List α
  | l, _, [] => l
  | l, d, x :: xs => insertRun (pyInsert l d x) (d + 1) xs

theorem pyInsert_eq {α : Type} (l : List α) (d : ℤ) (x : α)
    (h0 : 0 ≤ d) (hle : d ≤ (l.length : ℤ)) :
    pyInsert l d x = l.take d.toNat ++ x :: l.drop d.toNat := by
  have hmin : (min (if d < 0 then (l.length : ℤ) + d else d) (l.length : ℤ)) = d := by
    rw [if_neg (not_lt.mpr h0)]
    omega
  simp only [pyInsert, hmin]

/-- Correctness of the insertion loop: successive insertions at
`d, d + 1, ...` splice the run into the list at position `d`. -/
theorem insertRun_eq {α : Type} (ms : List α) (l : List α) (d : ℤ)
    (h0 : 0 ≤ d) (hle : d ≤ (l.length : ℤ)) :
    insertRun l d ms = l.take d.toNat ++ ms ++ l.drop d.toNat := by
  induction ms generalizing l d with
  | nil =>
    rw [show insertRun l d [] = l from rfl]
    rw [List.append_nil, List.take_append_drop]
  | cons x xs ih =>
    rw [show insertRun l d (x :: xs) = insertRun (pyInsert l d x) (d + 1) xs from rfl]
    rw [pyInsert_eq l d x h0 hle]
    have hlen2 : ((l.take d.toNat ++ x :: l.drop d.toNat).length : ℤ) = l.length + 1 := by
      simp only [List.length_append, List.length_take, List.length_cons, List.length_drop]
      omega
    rw [ih (l.take d.toNat ++ x :: l.drop d.toNat) (d + 1) (by omega) (by omega)]
    have hlen : (l.take d.toNat).length = d.toNat := by
      rw [List.length_take]
      omega
    have hdn : (d + 1).toNat = (l.take d.toNat).length + 1 := by omega
    rw [hdn, List.take_append, List.drop_append]
    simp only [List.take_succ_cons, List.take_zero, List.drop_succ_cons, List.drop_zero]
    simp [List.append_assoc]

/-! ### The moved-items extraction -/

theorem pyGet_cons_zero {α : Type} (x : α) (xs : List α) :
    pyGet (x :: xs) 0 = some x := by
  simp [pyGet, pyResolve]

theorem pyGet_cons_of_pos {α : Type} (x : α) (xs : List α) (i : ℤ)
    (h1 : 1 ≤ i) (h2 : i < ((x :: xs).length : ℤ)) :
    pyGet (x :: xs) i = pyGet xs (i - 1) := by
  have ha : pyResolve (x :: xs).length i = some i.toNat :=
    pyResolve_of_nonneg (by omega) h2
  have hb : pyResolve xs.length (i - 1) = some (i - 1).toNat :=
    pyResolve_of_nonneg (by omega) (by simp only [List.length_cons] at h2; omega)
  simp only [pyGet, ha, hb, Option.some_bind]
  have hsucc : i.toNat = (i - 1).toNat + 1 := by omega
  rw [hsucc, List.getElem?_cons_succ]

/-- The list comprehension `[self.pages[i] for i in sel]` over an ascending
in-range index list extracts exactly the elements at the selected positions, in
position order. -/
theorem filterMap_pyGet_eq_selectPos {α : Type} (l : List α) (sel : List ℤ)
    (hasc : sel.Pairwise (· < ·))
    (hmem : ∀ i ∈ sel, 0 ≤ i ∧ i < (l.length : ℤ)) :
    sel.filterMap (pyGet l) = selectPos l (fun j => decide ((j : ℤ) ∈ sel)) := by
  induction l generalizing sel with
  | nil =>
    cases sel with
    | nil => rfl
    | cons a rest =>
      obtain ⟨h0, hN⟩ := hmem a (List.mem_cons_self a rest)
      simp only [List.length_nil] at hN
      omega
  | cons x xs ih =>
    by_cases h0 : (0 : ℤ) ∈ sel
    · -- the head of the ascending list must be 0
      obtain ⟨rest, rfl⟩ : ∃ rest, sel = 0 :: rest := by
        cases sel with
        | nil => simp at h0
        | cons a rest =>
          rcases List.mem_cons.mp h0 with ha | ha
          · exact ⟨rest, by rw [← ha]⟩
          · have hlt : a < 0 := (List.pairwise_cons.mp hasc).1 0 ha
            have := (hmem a (List.mem_cons_self a rest)).1
            omega
      have hrest1 : ∀ i ∈ rest, 1 ≤ i := by
        intro i hi
        have := (List.pairwise_cons.mp hasc).1 i hi
        omega
      have hshift : rest.filterMap (pyGet (x :: xs)) =
          (rest.map (fun i : ℤ => i - 1)).filterMap (pyGet xs) := by
        rw [List.filterMap_map]
        refine List.filterMap_congr (fun i hi => ?_)
        exact pyGet_cons_of_pos x xs i (hrest1 i hi)
          (hmem i (List.mem_cons_of_mem 0 hi)).2
      rw [List.filterMap_cons, pyGet_cons_zero]
      rw [selectPos_cons]
      rw [show (decide ((((0 : ℕ) : ℤ)) ∈ (0 : ℤ) :: rest)) = true from by simp]
      simp only [if_true]
      rw [hshift, ih (rest.map (fun i : ℤ => i - 1))
        (List.Pairwise.map _ (fun a b hab => by omega) (List.pairwise_cons.mp hasc).2)
        (by
          intro b hb
          rcases List.mem_map.mp hb with ⟨i, hi, rfl⟩
          obtain ⟨_, hN⟩ := hmem i (List.mem_cons_of_mem 0 hi)
          have := hrest1 i hi
          simp only [List.length_cons] at hN
          omega)]
      refine congrArg (x :: ·) (selectPos_congr xs (fun j => ?_))
      refine decide_eq_decide.mpr ?_
      constructor
      · intro hj
        rcases List.mem_map.mp hj with ⟨i, hi, hie⟩
        have : ((j : ℤ) + 1) = i := by omega
        rw [show (((j + 1 : ℕ) : ℤ)) = (j : ℤ) + 1 from by push_cast; ring, this]
        exact List.mem_cons_of_mem 0 hi
      · intro hj
        rcases List.mem_cons.mp hj with hj0 | hj1
        · omega
        · exact List.mem_map.mpr ⟨(j : ℤ) + 1, by
            rw [show (((j + 1 : ℕ) : ℤ)) = (j : ℤ) + 1 from by push_cast; ring] at hj1
            exact hj1, by ring⟩
    · have hsel1 : ∀ i ∈ sel, 1 ≤ i := by
        intro i hi
        have h1 := (hmem i hi).1
        have : (i : ℤ) ≠ 0 := fun he => h0 (he ▸ hi)
        omega
      have hshift : sel.filterMap (pyGet (x :: xs)) =
          (sel.map (fun i : ℤ => i - 1)).filterMap (pyGet xs) := by
        rw [List.filterMap_map]
        refine List.filterMap_congr (fun i hi => ?_)
        exact pyGet_cons_of_pos x xs i (hsel1 i hi) (hmem i hi).2
      rw [selectPos_cons]
      rw [show (decide ((((0 : ℕ) : ℤ)) ∈ sel)) = false from by simpa using h0]
      simp only [Bool.false_eq_true, if_false]
      rw [hshift, ih (sel.map (fun i : ℤ => i - 1))
        (List.Pairwise.map _ (fun a b hab => by omega) hasc)
        (by
          intro b hb
          rcases List.mem_map.mp hb with ⟨i, hi, rfl⟩
          obtain ⟨_, hN⟩ := hmem i hi
          have := hsel1 i hi
          simp only [List.length_cons] at hN
          omega)]
      refine selectPos_congr xs (fun j => ?_)
      refine decide_eq_decide.mpr ?_
      constructor
      · intro hj
        rcases List.mem_map.mp hj with ⟨i, hi, hie⟩
        have : ((j : ℤ) + 1) = i := by omega
        rw [show (((j + 1 : ℕ) : ℤ)) = (j : ℤ) + 1 from by push_cast; ring, this]
        exact hi
      · intro hj
        exact List.mem_map.mpr ⟨(j : ℤ) + 1, by
          rw [show (((j + 1 : ℕ) : ℤ)) = (j : ℤ) + 1 from by push_cast; ring] at hj
          exact hj, by ring⟩

/-! ### filterMap and mapM over total index lists -/

theorem mapM_eq_filterMap {α β : Type} (s : List α) (g : α → Option β)
    (h : ∀ a ∈ s, (g a).isSome) : s.mapM g = some (s.filterMap g) := by
  induction s with
  | nil => rfl
  | cons a s ih =>
    obtain ⟨b, hb⟩ := Option.isSome_iff_exists.mp (h a (List.mem_cons_self a s))
    rw [List.mapM_cons, hb, ih (fun a ha => h a (List.mem_cons_of_mem _ ha))]
    simp [List.filterMap_cons, hb]

theorem length_filterMap_of_isSome {α β : Type} (s : List α) (g : α → Option β)
    (h : ∀ a ∈ s, (g a).isSome) : (s.filterMap g).length = s.length := by
  induction s with
  | nil => rfl
  | cons a s ih =>
    obtain ⟨b, hb⟩ := Option.isSome_iff_exists.mp (h a (List.mem_cons_self a s))
    rw [List.filterMap_cons, hb]
    simp only [List.length_cons]
    rw [ih (fun a ha => h a (List.mem_cons_of_mem _ ha))]

theorem getElem?_filterMap_of_isSome {α β : Type} (s : List α) (g : α → Option β)
    (h : ∀ a ∈ s, (g a).isSome) (k : ℕ) (hk : k < s.length) :
    (s.filterMap g)[k]? = g (s.get ⟨k, hk⟩) := by
  induction s generalizing k with
  | nil => simp at hk
  | cons a s ih =>
    obtain ⟨b, hb⟩ := Option.isSome_iff_exists.mp (h a (List.mem_cons_self a s))
    rw [List.filterMap_cons, hb]
    cases k with
    | zero => simp [hb]
    | succ k =>
      have hk2 : k < s.length := by simpa using hk
      rw [List.getElem?_cons_succ, ih (fun a ha => h a (List.mem_cons_of_mem _ ha)) k hk2]
      rfl

/-! ### Counting distinct integers in a half-open interval -/

theorem length_le_toNat_of_nodup_Ico (l : List ℤ) (lo hi : ℤ)
    (hnd : l.Nodup) (hmem : ∀ x ∈ l, lo ≤ x ∧ x < hi) :
    l.length ≤ (hi - lo).toNat := by
  have h1 : (l.map fun x : ℤ => (x - lo).toNat).Nodup := by
    refine List.Nodup.map_on ?_ hnd
    intro x hx y hy hxy
    obtain ⟨hx1, _⟩ := hmem x hx
    obtain ⟨hy1, _⟩ := hmem y hy
    omega
  have h2 : (l.map fun x : ℤ => (x - lo).toNat) ⊆ List.range (hi - lo).toNat := by
    intro k hk
    rcases List.mem_map.mp hk with ⟨x, hx, rfl⟩
    obtain ⟨hx1, hx2⟩ := hmem x hx
    exact List.mem_range.mpr (by omega)
  have h3 := (List.subperm_of_subset h1 h2).length_le
  simpa using h3

/-! ### The embedded application state and event handlers -/

/-- The state of `PDFPageEditorApp` relevant to the interaction core: the
ordered page collection, the selection (`selected_indices`, kept in selection
order), the range-select anchor (`last_clicked_index`) and the transient drag
state.  The visual widgets (`page_frames` and the insertion bar) mirror `pages`
one-to-one and carry no independent state, so they are not modelled. -/
structure AppState (α : Type) where
  pages : List α
  selected_indices : List ℤ
  last_clicked_index : Option ℤ
  dragging : Bool
  drag_start_index : Option ℤ
  drop_index : Option ℤ
deriving DecidableEq

/-- Models `removed_before = sum(1 for i in sel if i < dest)` from
`_on_release`. -/
def removed_before (sel : List ℤ) (d : ℤ) : ℤ :=
  ((sel.filter fun i => decide (i < d)).length : ℤ)

/-- The adjusted destination `dest -= removed_before` computed in
`_on_release`. -/
def adjustedDest (sel : List ℤ) (d : ℤ) : ℤ := d - removed_before sel d

/-- The lower-bound guard `if dest < 0: dest = 0` from `_on_release`. -/
def clampedDest (sel : List ℤ) (d : ℤ) : ℤ :=
  if adjustedDest sel d < 0 then 0 else adjustedDest sel d

/-- Models the relocation body of `_on_release` (lines 323-350): given the
sorted selection `sel` and the raw drop index `d`, compute the adjusted
destination, extract the selected pages, delete them from highest index to
lowest, reinsert them as a contiguous run at the destination, and return the
new page list together with the new selected indices
`list(range(dest, dest + len(sel)))`.  `none` models a raised `IndexError`. -/
def relocateCore {α : Type} (pages : List α) (sel : List ℤ) (d : ℤ) :
    Option (List α × List ℤ) :=
  let dest := clampedDest sel d
  match sel.mapM (pyGet pages) with
  | none => none
  | some pages_to_move =>
    match delLoop pages sel.reverse with
    | none => none
    | some remaining =>
      some (insertRun remaining dest pages_to_move,
            pyRange dest (dest + (sel.length : ℤ)))

/-- Models `_on_click`: the selection state machine followed by the
drag-preparation assignments.  `index` is the position resolved by
`_index_from_frame_or_child` (−1 when the widget lookup found no match);
`ctrl` and `shift` are the modifier keys of the event. -/
def on_click {α : Type} (st : AppState α) (index : ℤ) (ctrl shift : Bool) :
    AppState α :=
  let st2 :=
    match shift, st.last_clicked_index with
    | true, some anchor =>
      { st with selected_indices :=
          pyRange (min anchor index) (max anchor index + 1) }
    | _, _ =>
      if ctrl then
        let s :=
          if index ∈ st.selected_indices then st.selected_indices.erase index
          else st.selected_indices ++ [index]
        { st with selected_indices := pySorted s,
                  last_clicked_index := some index }
      else
        { st with selected_indices := [index],
                  last_clicked_index := some index }
  { st2 with dragging := false, drag_start_index := some index,
             drop_index := none }

/-- Models `_compute_drop_index`: scan the slot geometry (left edge, width)
pairs in layout order and return the position of the first slot whose midpoint
lies beyond the pointer, the slot count if none does, and `0` for an empty row.
Coordinates are exact rationals; the Python floats involved (pixel ints and
their halves) are exactly representable. -/
def compute_drop_index : List (ℚ × ℚ) → ℚ → ℕ
  | [], _ => 0
  | (x, w) :: rest, px =>
    if px < x + w / 2 then 0 else compute_drop_index rest px + 1

/-- Models `_on_drag`: a motion event with no pressed slot is ignored;
otherwise it activates the drag and recomputes the pending drop index from the
current slot geometry and the pointer position. -/
def on_drag {α : Type} (st : AppState α) (frames : List (ℚ × ℚ)) (px : ℚ) :
    AppState α :=
  match st.drag_start_index with
  | none => st
  | some _ =>
    { st with dragging := true,
              drop_index := some ((compute_drop_index frames px : ℕ) : ℤ) }

/-- Models `_on_release`: return the state unchanged if no drag is active, no
drop index was computed, or the selection is empty; otherwise relocate the
selected pages, select the moved run, and reset the drag state.  `none` models
a raised `IndexError`. -/
def on_release {α : Type} (st : AppState α) : Option (AppState α) :=
  match st.dragging, st.drop_index with
  | false, _ => some st
  | true, none => some st
  | true, some d =>
    let sel := pySorted st.selected_indices
    if sel = [] then some st
    else
      match relocateCore st.pages sel d with
      | none => none
      | some (newPages, newSel) =>
        some { st with pages := newPages, selected_indices := newSel,
                       dragging := false, drag_start_index := none,
                       drop_index := none }

/-- Specification-side view: the pages whose position is in `sel`, in position
order (the moved run). -/
def movedOf {α : Type} (pages : List α) (sel : List ℤ) : List α :=
  selectPos pages (fun j => decide ((j : ℤ) ∈ sel))

/-- Specification-side view: the pages whose position is not in `sel`, in
position order. -/
def keptOf {α : Type} (pages : List α) (sel : List ℤ) : List α :=
  removePos pages (fun j => decide ((j : ℤ) ∈ sel))

/-! ### Main characterization of the relocation -/

theorem pyGet_isSome {α : Type} (pages : List α) (i : ℤ)
    (h0 : 0 ≤ i) (hN : i < (pages.length : ℤ)) : (pyGet pages i).isSome := by
  rw [pyGet, pyResolve_of_nonneg h0 hN, Option.some_bind]
  rw [List.getElem?_eq_getElem (by omega)]
  rfl

/-- On a strictly ascending, in-range selection with an in-range drop index,
`relocateCore` succeeds and splices the moved pages, in position order, into
the kept pages at the adjusted destination `d - |{p in sel : p < d}|`; the new
selected indices are the contiguous run of the destination; and the adjusted
destination is already in `[0, N - |sel|]` without clamping. -/
theorem relocateCore_eq {α : Type} (pages : List α) (sel : List ℤ) (d : ℤ)
    (hasc : sel.Pairwise (· < ·))
    (hmem : ∀ i ∈ sel, 0 ≤ i ∧ i < (pages.length : ℤ))
    (hd0 : 0 ≤ d) (hdN : d ≤ (pages.length : ℤ)) :
    relocateCore pages sel d =
      some ((keptOf pages sel).take (adjustedDest sel d).toNat
              ++ movedOf pages sel
              ++ (keptOf pages sel).drop (adjustedDest sel d).toNat,
            pyRange (adjustedDest sel d) (adjustedDest sel d + (sel.length : ℤ))) ∧
    0 ≤ adjustedDest sel d ∧
    adjustedDest sel d + (sel.length : ℤ) ≤ (pages.length : ℤ) ∧
    (movedOf pages sel).length = sel.length ∧
    (keptOf pages sel).length = pages.length - sel.length := by
  have hnd : sel.Nodup := hasc.imp (fun h => ne_of_lt h)
  -- counting: the positions below the drop index
  have hcnt1 : removed_before sel d ≤ d := by
    have h1 := length_le_toNat_of_nodup_Ico (sel.filter fun i => decide (i < d)) 0 d
      (hnd.filter _)
      (fun x hx => by
        have hx2 := List.mem_filter.mp hx
        refine ⟨(hmem x hx2.1).1, by simpa using hx2.2⟩)
    rw [removed_before]
    omega
  have hsplit : sel.length =
      (sel.filter fun i => decide (i < d)).length +
      (sel.filter fun i => !(decide (i < d))).length :=
    List.length_eq_length_filter_add _
  have hcnt2 : d + ((sel.length : ℤ) - removed_before sel d) ≤ (pages.length : ℤ) := by
    have h1 := length_le_toNat_of_nodup_Ico (sel.filter fun i => !(decide (i < d)))
      d (pages.length : ℤ) (hnd.filter _)
      (fun x hx => by
        have hx2 := List.mem_filter.mp hx
        have hx3 : ¬ (x < d) := by simpa using hx2.2
        exact ⟨by omega, (hmem x hx2.1).2⟩)
    rw [removed_before]
    omega
  have hadj0 : 0 ≤ adjustedDest sel d := by
    rw [adjustedDest]
    omega
  have hadjN : adjustedDest sel d + (sel.length : ℤ) ≤ (pages.length : ℤ) := by
    rw [adjustedDest]
    omega
  have hclamp : clampedDest sel d = adjustedDest sel d := by
    rw [clampedDest, if_neg (not_lt.mpr hadj0)]
  -- extraction of the moved pages
  have hsome : ∀ i ∈ sel, (pyGet pages i).isSome := fun i hi =>
    pyGet_isSome pages i (hmem i hi).1 (hmem i hi).2
  have hmapM : sel.mapM (pyGet pages) = some (sel.filterMap (pyGet pages)) :=
    mapM_eq_filterMap sel (pyGet pages) hsome
  have hmoved : sel.filterMap (pyGet pages) = movedOf pages sel :=
    filterMap_pyGet_eq_selectPos pages sel hasc hmem
  have hmovedlen : (movedOf pages sel).length = sel.length := by
    rw [← hmoved]
    exact length_filterMap_of_isSome sel (pyGet pages) hsome
  -- deletion of the moved pages
  have hdel : delLoop pages sel.reverse = some (keptOf pages sel) := by
    rw [delLoop_eq_removePos pages sel.reverse
      (List.pairwise_reverse.mpr (hasc.imp (fun h => h)))
      (fun i hi => hmem i (List.mem_reverse.mp hi))]
    congr 1
    exact removePos_congr pages (fun j => by
      refine decide_eq_decide.mpr ?_
      exact List.mem_reverse)
  have hkeptlen : (keptOf pages sel).length = pages.length - sel.length := by
    have h1 := length_selectPos_add_removePos pages (fun j => decide ((j : ℤ) ∈ sel))
    have h2 : (movedOf pages sel).length +
        (keptOf pages sel).length = pages.length := h1
    omega
  -- assembling the relocation
  have hins : insertRun (keptOf pages sel) (clampedDest sel d)
      (movedOf pages sel) =
      (keptOf pages sel).take (adjustedDest sel d).toNat
        ++ movedOf pages sel
        ++ (keptOf pages sel).drop (adjustedDest sel d).toNat := by
    rw [hclamp]
    refine insertRun_eq _ _ _ hadj0 ?_
    rw [hkeptlen]
    omega
  refine ⟨?_, hadj0, hadjN, hmovedlen, hkeptlen⟩
  rw [relocateCore]
  rw [hmapM, hmoved, hdel]
  rw [hclamp] at hins
  simp only [hclamp, hins]

/-! ### Sorting invariance of the specification-side views -/

theorem keptOf_mem_congr {α : Type} (pages : List α) {s t : List ℤ}
    (h : ∀ i : ℤ, i ∈ s ↔ i ∈ t) : keptOf pages s = keptOf pages t :=
  removePos_congr pages (fun j => decide_eq_decide.mpr (h (j : ℤ)))

theorem movedOf_mem_congr {α : Type} (pages : List α) {s t : List ℤ}
    (h : ∀ i : ℤ, i ∈ s ↔ i ∈ t) : movedOf pages s = movedOf pages t :=
  selectPos_congr pages (fun j => decide_eq_decide.mpr (h (j : ℤ)))

theorem adjustedDest_pySorted (s : List ℤ) (d : ℤ) :
    adjustedDest (pySorted s) d = adjustedDest s d := by
  rw [adjustedDest, adjustedDest, removed_before, removed_before]
  rw [((pySorted_perm s).filter _).length_eq]

/-- Characterization of a successful `_on_release` in terms of the raw
(unsorted) selection: the relocated page list, the new selection, and the
bounds of the adjusted destination. -/
theorem on_release_spec {α : Type} (st : AppState α) (d : ℤ)
    (hdrag : st.dragging = true) (hdrop : st.drop_index = some d)
    (hd0 : 0 ≤ d) (hdN : d ≤ (st.pages.length : ℤ))
    (hne : st.selected_indices ≠ [])
    (hnd : st.selected_indices.Nodup)
    (hmem : ∀ i ∈ st.selected_indices, 0 ≤ i ∧ i < (st.pages.length : ℤ)) :
    on_release st =
      some { st with
        pages :=
          (keptOf st.pages st.selected_indices).take
              (adjustedDest st.selected_indices d).toNat
            ++ movedOf st.pages st.selected_indices
            ++ (keptOf st.pages st.selected_indices).drop
              (adjustedDest st.selected_indices d).toNat,
        selected_indices :=
          pyRange (adjustedDest st.selected_indices d)
            (adjustedDest st.selected_indices d + (st.selected_indices.length : ℤ)),
        dragging := false, drag_start_index := none, drop_index := none } ∧
    0 ≤ adjustedDest st.selected_indices d ∧
    adjustedDest st.selected_indices d + (st.selected_indices.length : ℤ) ≤
      (st.pages.length : ℤ) ∧
    (movedOf st.pages st.selected_indices).length = st.selected_indices.length ∧
    (keptOf st.pages st.selected_indices).length =
      st.pages.length - st.selected_indices.length := by
  obtain ⟨pages, selind, lci, dragging, dsi, dropi⟩ := st
  simp only at hdrag hdrop hd0 hdN hne hnd hmem ⊢
  subst hdrag
  subst hdrop
  have hmem2 : ∀ i ∈ pySorted selind, 0 ≤ i ∧ i < (pages.length : ℤ) :=
    fun i hi => hmem i (mem_pySorted.mp hi)
  have hasc := pairwise_lt_pySorted hnd
  obtain ⟨hmain, hadj0, hadjN, hmlen, hklen⟩ :=
    relocateCore_eq pages (pySorted selind) d hasc hmem2 hd0 hdN
  have hkept : keptOf pages (pySorted selind) = keptOf pages selind :=
    keptOf_mem_congr pages (fun i => mem_pySorted)
  have hmoved : movedOf pages (pySorted selind) = movedOf pages selind :=
    movedOf_mem_congr pages (fun i => mem_pySorted)
  have hadj : adjustedDest (pySorted selind) d = adjustedDest selind d :=
    adjustedDest_pySorted selind d
  rw [hkept, hmoved, hadj, length_pySorted] at hmain
  rw [hadj] at hadj0
  rw [hadj, length_pySorted] at hadjN
  rw [hmoved, length_pySorted] at hmlen
  rw [hkept, length_pySorted] at hklen
  have hselne : pySorted selind ≠ [] := by
    intro h
    have h2 := length_pySorted selind
    rw [h] at h2
    exact hne (List.length_eq_zero.mp h2.symm)
  refine ⟨?_, hadj0, hadjN, hmlen, hklen⟩
  show (if pySorted selind = [] then
          some (AppState.mk pages selind lci true dsi (some d))
        else
          match relocateCore pages (pySorted selind) d with
          | none => none
          | some (newPages, newSel) =>
            some (AppState.mk newPages newSel lci false none none)) = _
  rw [if_neg hselne, hmain]

theorem relocated_run_perm {α : Type} (pages : List α) (sel : List ℤ) (dn : ℕ) :
    List.Perm
      ((keptOf pages sel).take dn ++ movedOf pages sel ++ (keptOf pages sel).drop dn)
      pages := by
  rw [List.append_assoc]
  have h1 := List.perm_append_comm_assoc ((keptOf pages sel).take dn)
    (movedOf pages sel) ((keptOf pages sel).drop dn)
  rw [List.take_append_drop] at h1
  exact h1.trans (selectPos_append_removePos_perm pages _)

/-- C1: for every collection of `N` pages, every non-empty duplicate-free set
`S` of positions in `[0, N)` and every drop index `d ∈ [0, N]`, the
drag-release relocation produces the kept pages (relative order preserved) with
the moved pages (relative order preserved) spliced in as a contiguous run at
the adjusted destination `d2 = d - |{p ∈ S : p < d}|`; the page multiset is
unchanged; the moved pages sit at exactly the positions
`range(d2, d2 + |S|)`, which become the new selection. -/
theorem c1_relocation_postcondition {α : Type} (st : AppState α) (d : ℤ)
    (hdrag : st.dragging = true) (hdrop : st.drop_index = some d)
    (hd0 : 0 ≤ d) (hdN : d ≤ (st.pages.length : ℤ))
    (hne : st.selected_indices ≠ [])
    (hnd : st.selected_indices.Nodup)
    (hmem : ∀ i ∈ st.selected_indices, 0 ≤ i ∧ i < (st.pages.length : ℤ)) :
    on_release st =
      some { st with
        pages :=
          (keptOf st.pages st.selected_indices).take
              (adjustedDest st.selected_indices d).toNat
            ++ movedOf st.pages st.selected_indices
            ++ (keptOf st.pages st.selected_indices).drop
              (adjustedDest st.selected_indices d).toNat,
        selected_indices :=
          pyRange (adjustedDest st.selected_indices d)
            (adjustedDest st.selected_indices d + (st.selected_indices.length : ℤ)),
        dragging := false, drag_start_index := none, drop_index := none } ∧
    adjustedDest st.selected_indices d =
      d - ((st.selected_indices.filter fun i => decide (i < d)).length : ℤ) ∧
    List.Perm
      ((keptOf st.pages st.selected_indices).take
          (adjustedDest st.selected_indices d).toNat
        ++ movedOf st.pages st.selected_indices
        ++ (keptOf st.pages st.selected_indices).drop
          (adjustedDest st.selected_indices d).toNat)
      st.pages ∧
    (∀ (k : ℕ) (hk : k < (pySorted st.selected_indices).length),
      ((keptOf st.pages st.selected_indices).take
          (adjustedDest st.selected_indices d).toNat
        ++ movedOf st.pages st.selected_indices
        ++ (keptOf st.pages st.selected_indices).drop
          (adjustedDest st.selected_indices d).toNat)[
            (adjustedDest st.selected_indices d).toNat + k]? =
        pyGet st.pages ((pySorted st.selected_indices).get ⟨k, hk⟩)) := by
  obtain ⟨heq, hadj0, hadjN, hmlen, hklen⟩ :=
    on_release_spec st d hdrag hdrop hd0 hdN hne hnd hmem
  refine ⟨heq, rfl, relocated_run_perm _ _ _, ?_⟩
  intro k hk
  have hk2 : k < st.selected_indices.length := by
    rw [length_pySorted] at hk
    exact hk
  have hlenA : ((keptOf st.pages st.selected_indices).take
      (adjustedDest st.selected_indices d).toNat).length =
      (adjustedDest st.selected_indices d).toNat := by
    rw [List.length_take]
    omega
  rw [List.append_assoc]
  rw [List.getElem?_append_right (by omega)]
  rw [show (adjustedDest st.selected_indices d).toNat + k -
      ((keptOf st.pages st.selected_indices).take
        (adjustedDest st.selected_indices d).toNat).length = k by omega]
  rw [List.getElem?_append_left (by omega)]
  have hsome : ∀ i ∈ pySorted st.selected_indices, (pyGet st.pages i).isSome :=
    fun i hi => pyGet_isSome st.pages i (hmem i (mem_pySorted.mp hi)).1
      (hmem i (mem_pySorted.mp hi)).2
  have hmoved : movedOf st.pages st.selected_indices =
      (pySorted st.selected_indices).filterMap (pyGet st.pages) := by
    rw [filterMap_pyGet_eq_selectPos st.pages (pySorted st.selected_indices)
      (pairwise_lt_pySorted hnd)
      (fun i hi => hmem i (mem_pySorted.mp hi))]
    exact (movedOf_mem_congr st.pages (fun i => mem_pySorted)).symm
  rw [hmoved]
  exact getElem?_filterMap_of_isSome _ _ hsome k hk

/-- Closed instance of C1: the scenario of §8 of the spec — pages
`[A, B, C, D]`, selection `{1, 3}`, drop index `1`; the relocation yields
`[A, B, D, C]` with the moved run selected at positions `[1, 2]`. -/
theorem c1_relocation_postcondition_witness :
    on_release (AppState.mk ([10, 11, 12, 13] : List ℕ) [1, 3] none true
      (some 1) (some 1)) =
      some (AppState.mk ([10, 11, 13, 12] : List ℕ) [1, 2] none false
        none none) := by
  have h := c1_relocation_postcondition
    (AppState.mk ([10, 11, 12, 13] : List ℕ) [1, 3] none true (some 1) (some 1))
    1 rfl rfl (by decide) (by decide) (by decide) (by decide) (by decide)
  exact h.1.trans (by decide)

/-! ### Interval selections -/

theorem selectPos_eq_nil {α : Type} (l : List α) (f : ℕ → Bool)
    (h : ∀ j, f j = false) : selectPos l f = [] := by
  induction l generalizing f with
  | nil => rfl
  | cons x xs ih =>
    rw [selectPos_cons, h 0]
    simp only [Bool.false_eq_true, if_false]
    exact ih _ (fun j => h (j + 1))

theorem length_filter_range_lt (n m : ℕ) (h : m ≤ n) :
    ((List.range n).filter fun k => decide (k < m)).length = m := by
  induction n with
  | zero =>
    have : m = 0 := by omega
    subst this
    rfl
  | succ n ih =>
    rw [List.range_succ, List.filter_append]
    by_cases hm : m ≤ n
    · have hn : ¬ (n < m) := by omega
      simp only [List.filter_cons, List.filter_nil]
      rw [show (decide (n < m)) = false from by simpa using hn]
      simp only [Bool.false_eq_true, if_false]
      rw [List.length_append, ih hm]
      rfl
    · have hm2 : m = n + 1 := by omega
      subst hm2
      rw [List.filter_eq_self.mpr (fun k hk => by
        have := List.mem_range.mp hk
        simp only [decide_eq_true_eq]
        omega)]
      have hn : n < n + 1 := by omega
      simp [hn]

theorem filter_lt_pyRange_length (a b d : ℤ) (h1 : a ≤ d) (h2 : d ≤ b) :
    ((pyRange a b).filter fun i => decide (i < d)).length = (d - a).toNat := by
  rw [pyRange, List.filter_map, List.length_map]
  simp only [Function.comp_def]
  have hcongr : List.filter (fun k : ℕ => decide (a + (k : ℤ) < d))
      (List.range (b - a).toNat) =
      List.filter (fun k : ℕ => decide (k < (d - a).toNat))
      (List.range (b - a).toNat) :=
    List.filter_congr (fun k _ => decide_eq_decide.mpr (by omega))
  rw [hcongr]
  exact length_filter_range_lt _ _ (by omega)

/-- Selecting the positions of the interval `[a, b)` extracts the middle
slice. -/
theorem selectPos_interval {α : Type} (l : List α) (a b : ℤ) (h0 : 0 ≤ a) :
    selectPos l (fun j => decide (a ≤ (j : ℤ) ∧ (j : ℤ) < b)) =
      (l.drop a.toNat).take (b - a).toNat := by
  induction l generalizing a b with
  | nil => simp [selectPos]
  | cons x xs ih =>
    by_cases hb : b ≤ 0
    · rw [selectPos_eq_nil _ _ (fun j => by
        simp only [decide_eq_false_iff_not, not_and, not_lt]
        intro _
        omega)]
      rw [show (b - a).toNat = 0 from by omega, List.take_zero]
    · push_neg at hb
      by_cases ha : a = 0
      · subst ha
        rw [selectPos_cons]
        rw [if_pos (by
          simp only [decide_eq_true_eq]
          exact ⟨by omega, by omega⟩)]
        rw [selectPos_congr xs (fun j => decide_eq_decide.mpr
          (show ((0 : ℤ) ≤ ((j + 1 : ℕ) : ℤ) ∧ ((j + 1 : ℕ) : ℤ) < b) ↔
            ((0 : ℤ) ≤ (j : ℤ) ∧ (j : ℤ) < b - 1) from by push_cast; omega))]
        rw [ih 0 (b - 1) le_rfl]
        rw [show (b - 0).toNat = (b - 1 - 0).toNat + 1 from by omega]
        simp only [Int.toNat_zero, List.drop_zero, List.take_succ_cons]
      · have ha1 : 1 ≤ a := by omega
        rw [selectPos_cons]
        rw [if_neg (by
          simp only [decide_eq_true_eq, not_and]
          intro h
          omega)]
        rw [selectPos_congr xs (fun j => decide_eq_decide.mpr
          (show (a ≤ ((j + 1 : ℕ) : ℤ) ∧ ((j + 1 : ℕ) : ℤ) < b) ↔
            (a - 1 ≤ (j : ℤ) ∧ (j : ℤ) < b - 1) from by push_cast; omega))]
        rw [ih (a - 1) (b - 1) (by omega)]
        rw [show a.toNat = (a - 1).toNat + 1 from by omega]
        rw [show (b - a).toNat = (b - 1 - (a - 1)).toNat from by omega]
        simp only [List.drop_succ_cons]

/-- Removing the positions of the interval `[a, b)` keeps the prefix before `a`
and the suffix from `b`. -/
theorem removePos_interval {α : Type} (l : List α) (a b : ℤ)
    (h0 : 0 ≤ a) (hab : a ≤ b) :
    removePos l (fun j => decide (a ≤ (j : ℤ) ∧ (j : ℤ) < b)) =
      l.take a.toNat ++ l.drop b.toNat := by
  induction l generalizing a b with
  | nil => simp [removePos]
  | cons x xs ih =>
    by_cases hb : b ≤ 0
    · rw [removePos_eq_self _ _ (fun j => by
        simp only [decide_eq_false_iff_not, not_and, not_lt]
        intro _
        omega)]
      rw [show a.toNat = 0 from by omega, show b.toNat = 0 from by omega]
      rfl
    · push_neg at hb
      by_cases ha : a = 0
      · subst ha
        rw [removePos_cons]
        rw [if_pos (by
          simp only [decide_eq_true_eq]
          exact ⟨by omega, by omega⟩)]
        rw [removePos_congr xs (fun j => decide_eq_decide.mpr
          (show ((0 : ℤ) ≤ ((j + 1 : ℕ) : ℤ) ∧ ((j + 1 : ℕ) : ℤ) < b) ↔
            ((0 : ℤ) ≤ (j : ℤ) ∧ (j : ℤ) < b - 1) from by push_cast; omega))]
        rw [ih 0 (b - 1) le_rfl (by omega)]
        rw [show b.toNat = (b - 1).toNat + 1 from by omega]
        simp only [Int.toNat_zero, List.take_zero, List.nil_append,
          List.drop_succ_cons]
      · have ha1 : 1 ≤ a := by omega
        rw [removePos_cons]
        rw [if_neg (by
          simp only [decide_eq_true_eq, not_and]
          intro h
          omega)]
        rw [removePos_congr xs (fun j => decide_eq_decide.mpr
          (show (a ≤ ((j + 1 : ℕ) : ℤ) ∧ ((j + 1 : ℕ) : ℤ) < b) ↔
            (a - 1 ≤ (j : ℤ) ∧ (j : ℤ) < b - 1) from by push_cast; omega))]
        rw [ih (a - 1) (b - 1) (by omega) (by omega)]
        rw [show a.toNat = (a - 1).toNat + 1 from by omega]
        rw [show b.toNat = (b - 1).toNat + 1 from by omega]
        simp only [List.take_succ_cons, List.drop_succ_cons, List.cons_append]

/-! ### Claim C2 -/

/-- C2 counterexample: the claim quantifies over EVERY non-empty selection, but
for the non-contiguous selection `S = {0, 2}` of `[A, B, C, D]` a drop at
`d = 0` — a position in `S` — gathers the run and visibly reorders the
collection to `[A, C, B, D]`. -/
theorem c2_counterexample :
    ((0 : ℤ) ∈ ([0, 2] : List ℤ)) ∧
    (on_release (AppState.mk ([10, 11, 12, 13] : List ℕ) [0, 2] none true
      (some 0) (some 0))).map AppState.pages ≠
      some ([10, 11, 12, 13] : List ℕ) := by decide

/-- C2 (amended): for a CONTIGUOUS selection run `S = [a, a + len)` and a drop
index `d` that equals one of the selected positions or is immediately adjacent
after the run (`a ≤ d ≤ a + len`), the relocation produces no visible change:
the page order is unchanged and the same run stays selected. -/
theorem c2_noop_adjacent_drop {α : Type} (pages : List α) (a len d : ℤ)
    (h0 : 0 ≤ a) (hlen : 1 ≤ len) (hN : a + len ≤ (pages.length : ℤ))
    (hd1 : a ≤ d) (hd2 : d ≤ a + len) :
    relocateCore pages (pyRange a (a + len)) d =
      some (pages, pyRange a (a + len)) := by
  obtain ⟨hmain, hadj0, hadjN, hmlen, hklen⟩ :=
    relocateCore_eq pages (pyRange a (a + len)) d (pairwise_lt_pyRange _ _)
      (fun i hi => by
        rw [mem_pyRange] at hi
        exact ⟨by omega, by omega⟩)
      (by omega) (by omega)
  have hD : adjustedDest (pyRange a (a + len)) d = a := by
    rw [adjustedDest, removed_before, filter_lt_pyRange_length a (a + len) d hd1 hd2]
    omega
  have hkept : keptOf pages (pyRange a (a + len)) =
      pages.take a.toNat ++ pages.drop (a + len).toNat := by
    rw [keptOf, removePos_congr pages
      (fun j => decide_eq_decide.mpr mem_pyRange)]
    exact removePos_interval pages a (a + len) h0 (by omega)
  have hmoved : movedOf pages (pyRange a (a + len)) =
      (pages.drop a.toNat).take len.toNat := by
    rw [movedOf, selectPos_congr pages
      (fun j => decide_eq_decide.mpr mem_pyRange)]
    rw [selectPos_interval pages a (a + len) h0]
    rw [show (a + len - a).toNat = len.toNat from by omega]
  rw [hD, hkept, hmoved] at hmain
  rw [hmain]
  have hTlen : (pages.take a.toNat).length = a.toNat := by
    rw [List.length_take]
    omega
  have htake : (pages.take a.toNat ++ pages.drop (a + len).toNat).take a.toNat =
      pages.take a.toNat := List.take_left' hTlen
  have hdrop : (pages.take a.toNat ++ pages.drop (a + len).toNat).drop a.toNat =
      pages.drop (a + len).toNat := List.drop_left' hTlen
  rw [htake, hdrop]
  have hrebuild : pages.take a.toNat ++ (pages.drop a.toNat).take len.toNat ++
      pages.drop (a + len).toNat = pages := by
    rw [List.append_assoc]
    rw [show pages.drop (a + len).toNat =
      ((pages.drop a.toNat).drop len.toNat) from by
        rw [List.drop_drop]
        rw [show a.toNat + len.toNat = (a + len).toNat from by omega]]
    rw [List.take_append_drop, List.take_append_drop]
  rw [hrebuild]
  rw [show ((pyRange a (a + len)).length : ℤ) = len from by
    rw [length_pyRange]
    omega]

/-- Closed instance of the amended C2: the contiguous run `{1, 2}` of a
three-page collection dropped immediately after its last item is a no-op. -/
theorem c2_noop_adjacent_drop_witness :
    relocateCore ([10, 11, 12] : List ℕ) (pyRange 1 3) 3 =
      some (([10, 11, 12] : List ℕ), pyRange 1 3) := by
  have h := c2_noop_adjacent_drop ([10, 11, 12] : List ℕ) 1 2 3
    (by decide) (by decide) (by decide) (by decide) (by decide)
  exact (by decide : pyRange 1 (1 + 2) = pyRange 1 3) ▸ h

/-! ### Claim C10 -/

theorem adjustedDest_bounds (sel : List ℤ) (d : ℤ) (N : ℕ)
    (hnd : sel.Nodup)
    (hmem : ∀ i ∈ sel, 0 ≤ i ∧ i < (N : ℤ))
    (hd0 : 0 ≤ d) (hdN : d ≤ (N : ℤ)) :
    0 ≤ adjustedDest sel d ∧
    adjustedDest sel d + (sel.length : ℤ) ≤ (N : ℤ) := by
  have hcnt1 : removed_before sel d ≤ d := by
    have h1 := length_le_toNat_of_nodup_Ico (sel.filter fun i => decide (i < d))
      0 d (hnd.filter _)
      (fun x hx => by
        have hx2 := List.mem_filter.mp hx
        exact ⟨(hmem x hx2.1).1, by simpa using hx2.2⟩)
    rw [removed_before]
    omega
  have hsplit : sel.length =
      (sel.filter fun i => decide (i < d)).length +
      (sel.filter fun i => !(decide (i < d))).length :=
    List.length_eq_length_filter_add _
  have hcnt2 :
      d + ((sel.length : ℤ) - removed_before sel d) ≤ (N : ℤ) := by
    have h1 := length_le_toNat_of_nodup_Ico
      (sel.filter fun i => !(decide (i < d))) d (N : ℤ) (hnd.filter _)
      (fun x hx => by
        have hx2 := List.mem_filter.mp hx
        have hx3 : ¬ (x < d) := by simpa using hx2.2
        exact ⟨by omega, (hmem x hx2.1).2⟩)
    rw [removed_before]
    omega
  constructor
  · rw [adjustedDest]
    omega
  · rw [adjustedDest]
    omega

/-- C10: the destination adjustment never needs clamping — for every drop
index `d ∈ [0, N]` and every non-empty duplicate-free selection of positions in
`[0, N)`, the adjusted destination `d - |{p ∈ S : p < d}|` is already
non-negative (so the code guard `if dest < 0` never fires) and at most
`N - |S|` (so no upper clamp is needed and every insertion performed during the
relocation is within bounds). -/
theorem c10_adjustment_needs_no_clamping (sel : List ℤ) (d : ℤ) (N : ℕ)
    (_hne : sel ≠ []) (hnd : sel.Nodup)
    (hmem : ∀ i ∈ sel, 0 ≤ i ∧ i < (N : ℤ))
    (hd0 : 0 ≤ d) (hdN : d ≤ (N : ℤ)) :
    0 ≤ adjustedDest sel d ∧
    clampedDest sel d = adjustedDest sel d ∧
    adjustedDest sel d + (sel.length : ℤ) ≤ (N : ℤ) := by
  obtain ⟨h1, h2⟩ := adjustedDest_bounds sel d N hnd hmem hd0 hdN
  exact ⟨h1, by rw [clampedDest, if_neg (not_lt.mpr h1)], h2⟩

/-- Closed instance of C10 at `S = {1, 3}`, `d = 1`, `N = 4`. -/
theorem c10_adjustment_needs_no_clamping_witness :
    0 ≤ adjustedDest [1, 3] 1 ∧
    clampedDest [1, 3] 1 = adjustedDest [1, 3] 1 ∧
    adjustedDest [1, 3] 1 + (([1, 3] : List ℤ).length : ℤ) ≤ ((4 : ℕ) : ℤ) :=
  c10_adjustment_needs_no_clamping [1, 3] 1 4 (by decide) (by decide)
    (by decide) (by decide) (by decide)

/-! ### Claim C5 -/

/-- C5 counterexample: pointer-up while dragging with an empty selection takes
the early `return` of `_on_release` — the drag flag stays `True` and the
pending drop index stays set, so the controller does not return to the Idle
drag state as the claim requires. -/
theorem c5_counterexample :
    (on_release (AppState.mk ([7] : List ℕ) [] none true (some 0)
        (some 0))).map AppState.dragging = some true ∧
    (on_release (AppState.mk ([7] : List ℕ) [] none true (some 0)
        (some 0))).map AppState.drop_index = some (some 0) := by decide

theorem on_release_abort {α : Type} (st : AppState α)
    (h : st.dragging = false ∨ st.drop_index = none ∨
      st.selected_indices = []) :
    on_release st = some st := by
  obtain ⟨pages, selind, lci, dragging, dsi, dropi⟩ := st
  cases dragging with
  | false => rfl
  | true =>
    cases dropi with
    | none => rfl
    | some d =>
      simp only at h
      rcases h with h | h | h
      · simp at h
      · simp at h
      · subst h
        rfl

/-- C5 (amended): on pointer-up, if the drag never became active, or no pending
drop index was computed, or the selection is empty, then no relocation occurs —
the handler returns the ENTIRE state unchanged.  In particular the collection
order is untouched, but the drag flags and the pending drop index are NOT
reset by these abort paths: they keep their prior values (the next
pointer-down resets them in `_on_click`). -/
theorem c5_abort_returns_state_unchanged {α : Type} (st : AppState α)
    (h : st.dragging = false ∨ st.drop_index = none ∨
      st.selected_indices = []) :
    on_release st = some st :=
  on_release_abort st h

/-- Closed instance of the amended C5: pointer-up while only Pressed (drag flag
still `False`) leaves the state untouched. -/
theorem c5_abort_witness :
    on_release (AppState.mk ([5] : List ℕ) [0] none false (some 0) none) =
      some (AppState.mk ([5] : List ℕ) [0] none false (some 0) none) :=
  c5_abort_returns_state_unchanged _ (Or.inl rfl)

/-! ### Claim C3 -/

/-- C3 counterexample: `_on_click` has no guard for a resolved position of −1;
a plain click with prior selection `[0]` and anchor `0` overwrites both — the
selection becomes `[-1]` and the anchor −1, so the click is not a no-op. -/
theorem c3_counterexample :
    (on_click (AppState.mk ([5, 6] : List ℕ) [0] (some 0) false none none)
        (-1) false false).selected_indices = [-1] ∧
    (on_click (AppState.mk ([5, 6] : List ℕ) [0] (some 0) false none none)
        (-1) false false).last_clicked_index = some (-1) ∧
    ([(-1 : ℤ)] ≠ ([0] : List ℤ)) := by decide

/-- C3 (amended): a click whose resolved position is −1 is NOT guarded; the
ordinary selection state machine runs with position −1.  A plain click — and a
shift-click with no prior anchor — at −1 sets the selection to `[-1]` and the
anchor to −1, mutating both whenever they differed. -/
theorem c3_click_outside_mutates {α : Type} (st : AppState α) :
    on_click st (-1) false false =
      { st with selected_indices := [-1], last_clicked_index := some (-1),
                dragging := false, drag_start_index := some (-1),
                drop_index := none } ∧
    (st.last_clicked_index = none →
      on_click st (-1) false true =
        { st with selected_indices := [-1], last_clicked_index := some (-1),
                  dragging := false, drag_start_index := some (-1),
                  drop_index := none }) := by
  obtain ⟨pages, selind, lci, dragging, dsi, dropi⟩ := st
  constructor
  · rfl
  · intro h
    simp only at h
    subst h
    rfl

/-- Closed instance of the amended C3: a shift-click at −1 with no prior
anchor selects `[-1]`. -/
theorem c3_click_outside_witness :
    on_click (AppState.mk ([5] : List ℕ) [] none false none none)
        (-1) false true =
      AppState.mk ([5] : List ℕ) [-1] (some (-1)) false (some (-1)) none :=
  (c3_click_outside_mutates _).2 rfl

/-! ### Claim C9 -/

/-- C9: the selection-click state machine — (a) a plain click collapses the
selection to the clicked singleton and anchors there; (b) a toggle-click on a
selected position removes exactly that position (set-level, on a duplicate-free
selection) and on an unselected position appends it, the selection being
re-sorted; the anchor moves to the clicked position; (c) a shift-click with no
prior anchor behaves as a plain click; (d) a shift-click with a prior anchor
selects the contiguous inclusive range between anchor and click and leaves the
anchor unchanged. -/
theorem c9_click_state_machine {α : Type} (st : AppState α) (index : ℤ) :
    (on_click st index false false).selected_indices = [index] ∧
    (on_click st index false false).last_clicked_index = some index ∧
    (index ∈ st.selected_indices →
      (on_click st index true false).selected_indices =
        pySorted (st.selected_indices.erase index)) ∧
    (index ∈ st.selected_indices → st.selected_indices.Nodup →
      ∀ j : ℤ, j ∈ (on_click st index true false).selected_indices ↔
        (j ∈ st.selected_indices ∧ j ≠ index)) ∧
    (index ∉ st.selected_indices →
      (on_click st index true false).selected_indices =
        pySorted (st.selected_indices ++ [index]) ∧
      (∀ j : ℤ, j ∈ (on_click st index true false).selected_indices ↔
        (j ∈ st.selected_indices ∨ j = index))) ∧
    (on_click st index true false).last_clicked_index = some index ∧
    (st.last_clicked_index = none →
      on_click st index false true = on_click st index false false) ∧
    (∀ a : ℤ, st.last_clicked_index = some a → ∀ ctrl : Bool,
      (on_click st index ctrl true).selected_indices =
        pyRange (min a index) (max a index + 1) ∧
      (on_click st index ctrl true).last_clicked_index = some a) := by
  obtain ⟨pages, selind, lci, dragging, dsi, dropi⟩ := st
  refine ⟨rfl, rfl, ?_, ?_, ?_, ?_, ?_, ?_⟩
  · intro hmem
    simp only [on_click, if_pos hmem, if_true]
  · intro hmem hnd j
    simp only [on_click, if_pos hmem, if_true]
    rw [mem_pySorted, List.Nodup.mem_erase_iff hnd]
    exact and_comm
  · intro hmem
    constructor
    · simp only [on_click, if_neg hmem, if_true]
    · intro j
      simp only [on_click, if_neg hmem, if_true]
      rw [mem_pySorted, List.mem_append, List.mem_singleton]
  · by_cases hmem : index ∈ selind
    · simp only [on_click, if_pos hmem, if_true]
    · simp only [on_click, if_neg hmem, if_true]
  · intro h
    simp only at h
    subst h
    rfl
  · intro a ha ctrl
    simp only at ha
    subst ha
    exact ⟨rfl, rfl⟩

/-- Closed instances of C9: toggling a selected position, toggling an
unselected position, and a shift-click against an anchor. -/
theorem c9_click_state_machine_witness :
    ((2 : ℤ) ∈ ([0, 2] : List ℤ) ∧
      (on_click (AppState.mk ([5, 6, 7] : List ℕ) [0, 2] (some 2) false
          none none) 2 true false).selected_indices =
        pySorted (([0, 2] : List ℤ).erase 2)) ∧
    ((1 : ℤ) ∉ ([0, 2] : List ℤ) ∧
      (on_click (AppState.mk ([5, 6, 7] : List ℕ) [0, 2] (some 2) false
          none none) 1 true false).selected_indices =
        pySorted (([0, 2] : List ℤ) ++ [1])) ∧
    (on_click (AppState.mk ([5, 6, 7] : List ℕ) [0, 2] (some 2) false
        none none) 0 false true).selected_indices =
      pyRange (min 2 0) (max 2 0 + 1) := by
  refine ⟨⟨by decide, ?_⟩, ⟨by decide, ?_⟩, ?_⟩
  · exact (c9_click_state_machine
      (AppState.mk ([5, 6, 7] : List ℕ) [0, 2] (some 2) false none none)
      2).2.2.1 (by decide)
  · exact ((c9_click_state_machine
      (AppState.mk ([5, 6, 7] : List ℕ) [0, 2] (some 2) false none none)
      1).2.2.2.2.1 (by decide)).1
  · exact ((c9_click_state_machine
      (AppState.mk ([5, 6, 7] : List ℕ) [0, 2] (some 2) false none none)
      0).2.2.2.2.2.2.2 2 rfl false).1

/-! ### Claim C4 -/

/-- C4: selection range invariant — after every selection transition (plain
click, range-select, toggle-select) on a valid slot position and after every
relocation, every position in the selection set lies in `[0, N)` for `N` the
current number of pages. -/
theorem c4_selection_in_range {α : Type} :
    (∀ (st : AppState α) (index : ℤ) (ctrl shift : Bool),
      (∀ i ∈ st.selected_indices, 0 ≤ i ∧ i < (st.pages.length : ℤ)) →
      (∀ a : ℤ, st.last_clicked_index = some a →
        0 ≤ a ∧ a < (st.pages.length : ℤ)) →
      0 ≤ index → index < (st.pages.length : ℤ) →
      ∀ i ∈ (on_click st index ctrl shift).selected_indices,
        0 ≤ i ∧ i < ((on_click st index ctrl shift).pages.length : ℤ)) ∧
    (∀ (st st2 : AppState α) (d : ℤ),
      st.dragging = true → st.drop_index = some d →
      0 ≤ d → d ≤ (st.pages.length : ℤ) →
      st.selected_indices.Nodup →
      (∀ i ∈ st.selected_indices, 0 ≤ i ∧ i < (st.pages.length : ℤ)) →
      on_release st = some st2 →
      ∀ i ∈ st2.selected_indices, 0 ≤ i ∧ i < (st2.pages.length : ℤ)) := by
  constructor
  · rintro ⟨pages, selind, lci, dragging, dsi, dropi⟩ index ctrl shift
      hsel hanc h0 hN i hi
    simp only at hsel hanc h0 hN
    cases shift with
    | true =>
      cases lci with
      | some a =>
        simp only [on_click] at hi ⊢
        rw [mem_pyRange] at hi
        have ha := hanc a rfl
        exact ⟨by omega, by omega⟩
      | none =>
        cases ctrl with
        | true =>
          simp only [on_click, if_true] at hi ⊢
          rw [mem_pySorted] at hi
          by_cases hm : index ∈ selind
          · rw [if_pos hm] at hi
            exact hsel i (List.mem_of_mem_erase hi)
          · rw [if_neg hm] at hi
            rcases List.mem_append.mp hi with h | h
            · exact hsel i h
            · rw [List.mem_singleton] at h
              subst h
              exact ⟨h0, hN⟩
        | false =>
          simp only [on_click, Bool.false_eq_true, if_false] at hi ⊢
          rw [List.mem_singleton] at hi
          subst hi
          exact ⟨h0, hN⟩
    | false =>
      cases ctrl with
      | true =>
        simp only [on_click, if_true] at hi ⊢
        rw [mem_pySorted] at hi
        by_cases hm : index ∈ selind
        · rw [if_pos hm] at hi
          exact hsel i (List.mem_of_mem_erase hi)
        · rw [if_neg hm] at hi
          rcases List.mem_append.mp hi with h | h
          · exact hsel i h
          · rw [List.mem_singleton] at h
            subst h
            exact ⟨h0, hN⟩
      | false =>
        simp only [on_click, Bool.false_eq_true, if_false] at hi ⊢
        rw [List.mem_singleton] at hi
        subst hi
        exact ⟨h0, hN⟩
  · intro st st2 d hdrag hdrop hd0 hdN hnd hmem hrel i hi
    by_cases hne : st.selected_indices = []
    · have h1 := on_release_abort st (Or.inr (Or.inr hne))
      rw [hrel] at h1
      have h2 : st2 = st := Option.some.inj h1
      subst h2
      rw [hne] at hi
      simp at hi
    · obtain ⟨heq, hadj0, hadjN, hmlen, hklen⟩ :=
        on_release_spec st d hdrag hdrop hd0 hdN hne hnd hmem
      rw [heq] at hrel
      have h2 := Option.some.inj hrel
      subst h2
      simp only at hi ⊢
      rw [mem_pyRange] at hi
      have hlen :
          ((keptOf st.pages st.selected_indices).take
              (adjustedDest st.selected_indices d).toNat
            ++ movedOf st.pages st.selected_indices
            ++ (keptOf st.pages st.selected_indices).drop
              (adjustedDest st.selected_indices d).toNat).length =
          st.pages.length := by
        simp only [List.length_append, List.length_take, List.length_drop]
        omega
      rw [hlen]
      exact ⟨by omega, by omega⟩

/-- Closed instances of C4: a plain click on position 2 of a three-page state,
and the selection produced by the §8 relocation scenario. -/
theorem c4_selection_in_range_witness :
    ((0 : ℤ) ≤ 2 ∧ (2 : ℤ) <
      (((on_click (AppState.mk ([5, 6, 7] : List ℕ) [0] (some 0) false
        none none) 2 false false)).pages.length : ℤ)) ∧
    ((0 : ℤ) ≤ 1 ∧ (1 : ℤ) <
      ((AppState.mk ([10, 11, 13, 12] : List ℕ) [1, 2] none false
        none none).pages.length : ℤ)) := by
  constructor
  · exact (@c4_selection_in_range ℕ).1
      (AppState.mk ([5, 6, 7] : List ℕ) [0] (some 0) false none none)
      2 false false (by decide)
      (by
        intro a ha
        have h2 : (0 : ℤ) = a := Option.some.inj ha
        subst h2
        decide)
      (by decide) (by decide) 2 (by decide)
  · exact (@c4_selection_in_range ℕ).2
      (AppState.mk ([10, 11, 12, 13] : List ℕ) [1, 3] none true
        (some 1) (some 1))
      (AppState.mk ([10, 11, 13, 12] : List ℕ) [1, 2] none false none none)
      1 rfl rfl (by decide) (by decide) (by decide) (by decide)
      (by decide) 1 (by decide)

/-! ### Claim C6 -/

/-- The midpoint `x + width / 2` of a slot, as computed by
`_compute_drop_index`. -/
def midOf (s : ℚ × ℚ) : ℚ := s.1 + s.2 / 2

theorem compute_drop_index_cons (x w : ℚ) (rest : List (ℚ × ℚ)) (px : ℚ) :
    compute_drop_index ((x, w) :: rest) px =
      if px < x + w / 2 then 0 else compute_drop_index rest px + 1 := rfl

theorem compute_drop_index_le (fs : List (ℚ × ℚ)) (px : ℚ) :
    compute_drop_index fs px ≤ fs.length := by
  induction fs with
  | nil => exact Nat.le_refl 0
  | cons f rest ih =>
    obtain ⟨x, w⟩ := f
    rw [compute_drop_index_cons]
    split
    · simp
    · simpa using Nat.succ_le_succ ih

theorem compute_drop_index_hit (fs : List (ℚ × ℚ)) (px : ℚ) (s : ℚ × ℚ)
    (hs : fs[compute_drop_index fs px]? = some s) : px < midOf s := by
  induction fs with
  | nil => simp [compute_drop_index] at hs
  | cons f rest ih =>
    obtain ⟨x, w⟩ := f
    by_cases hp : px < x + w / 2
    · rw [compute_drop_index_cons, if_pos hp, List.getElem?_cons_zero] at hs
      have h2 : (x, w) = s := Option.some.inj hs
      subst h2
      exact hp
    · rw [compute_drop_index_cons, if_neg hp, List.getElem?_cons_succ] at hs
      exact ih hs

theorem compute_drop_index_first (fs : List (ℚ × ℚ)) (px : ℚ) (j : ℕ)
    (s : ℚ × ℚ) (hj : fs[j]? = some s)
    (hlt : j < compute_drop_index fs px) : ¬ px < midOf s := by
  induction fs generalizing j with
  | nil => simp at hj
  | cons f rest ih =>
    obtain ⟨x, w⟩ := f
    by_cases hp : px < x + w / 2
    · rw [compute_drop_index_cons, if_pos hp] at hlt
      omega
    · rw [compute_drop_index_cons, if_neg hp] at hlt
      cases j with
      | zero =>
        rw [List.getElem?_cons_zero] at hj
        have h2 : (x, w) = s := Option.some.inj hj
        subst h2
        exact hp
      | succ j =>
        rw [List.getElem?_cons_succ] at hj
        exact ih j hj (by omega)

theorem compute_drop_index_all_miss (fs : List (ℚ × ℚ)) (px : ℚ)
    (h : ∀ (j : ℕ) (s : ℚ × ℚ), fs[j]? = some s → ¬ px < midOf s) :
    compute_drop_index fs px = fs.length := by
  rcases Nat.lt_or_ge (compute_drop_index fs px) fs.length with hlt | hge
  · exfalso
    have hs : fs[compute_drop_index fs px]? =
        some (fs.get ⟨compute_drop_index fs px, hlt⟩) := by
      rw [List.getElem?_eq_getElem hlt]
      rfl
    exact h _ _ hs (compute_drop_index_hit fs px _ hs)
  · exact Nat.le_antisymm (compute_drop_index_le fs px) hge

theorem compute_drop_index_eq (fs : List (ℚ × ℚ)) (px : ℚ) (i : ℕ)
    (hi : i < fs.length)
    (hhit : ∀ s : ℚ × ℚ, fs[i]? = some s → px < midOf s)
    (hmiss : ∀ (j : ℕ) (s : ℚ × ℚ), j < i → fs[j]? = some s → ¬ px < midOf s) :
    compute_drop_index fs px = i := by
  induction fs generalizing i with
  | nil => simp at hi
  | cons f rest ih =>
    obtain ⟨x, w⟩ := f
    cases i with
    | zero =>
      have h1 : px < x + w / 2 := hhit (x, w) (by rw [List.getElem?_cons_zero])
      rw [compute_drop_index_cons, if_pos h1]
    | succ i =>
      have h0 : ¬ px < x + w / 2 :=
        hmiss 0 (x, w) (Nat.succ_pos i) (by rw [List.getElem?_cons_zero])
      rw [compute_drop_index_cons, if_neg h0]
      have h2 := ih i (by simpa using hi)
        (fun s hs => hhit s (by rw [List.getElem?_cons_succ]; exact hs))
        (fun j s hj hs => hmiss (j + 1) s (by omega)
          (by rw [List.getElem?_cons_succ]; exact hs))
      omega

/-- Slot geometry of `N` equal-width slots of width `W`, laid out left to right
from `x = 0` with uniform inter-slot gap `G` (the layout scenario of the
specification). -/
def uniformSlots (N : ℕ) (W G : ℚ) : List (ℚ × ℚ) :=
  (List.range N).map fun j : ℕ => ((j : ℚ) * (W + G), W)

theorem uniformSlots_getElem (N : ℕ) (W G : ℚ) (j : ℕ) (h : j < N) :
    (uniformSlots N W G)[j]? = some ((j : ℚ) * (W + G), W) := by
  rw [uniformSlots, List.getElem?_map, List.getElem?_range h]
  rfl

theorem uniformSlots_length (N : ℕ) (W G : ℚ) :
    (uniformSlots N W G).length = N := by
  rw [uniformSlots, List.length_map, List.length_range]

/-- C6: the drop-index resolver returns the position of the first slot in scan
order whose midpoint `x + width / 2` exceeds the pointer coordinate; `N` when
no midpoint exceeds it; `0` for an empty slot row; the result is always in
`[0, N]`.  For `N` equal-width slots of pixel width `W ≥ 1` with uniform pixel
gap `G` starting at `x = 0`, a pointer at `i * (W + G) + W / 2 - 1` resolves to
index `i`. -/
theorem c6_drop_index_resolver :
    (∀ (fs : List (ℚ × ℚ)) (px : ℚ), compute_drop_index fs px ≤ fs.length) ∧
    (∀ (fs : List (ℚ × ℚ)) (px : ℚ) (s : ℚ × ℚ),
      fs[compute_drop_index fs px]? = some s → px < midOf s) ∧
    (∀ (fs : List (ℚ × ℚ)) (px : ℚ) (j : ℕ) (s : ℚ × ℚ),
      fs[j]? = some s → j < compute_drop_index fs px → ¬ px < midOf s) ∧
    (∀ (fs : List (ℚ × ℚ)) (px : ℚ),
      (∀ (j : ℕ) (s : ℚ × ℚ), fs[j]? = some s → ¬ px < midOf s) →
      compute_drop_index fs px = fs.length) ∧
    (∀ px : ℚ, compute_drop_index [] px = 0) ∧
    (∀ (N Wn Gn i : ℕ), 1 ≤ Wn → i < N →
      compute_drop_index (uniformSlots N (Wn : ℚ) (Gn : ℚ))
        ((i : ℚ) * ((Wn : ℚ) + (Gn : ℚ)) + (Wn : ℚ) / 2 - 1) = i) := by
  refine ⟨compute_drop_index_le, compute_drop_index_hit,
    (fun fs px j s hj hlt => compute_drop_index_first fs px j s hj hlt),
    compute_drop_index_all_miss, (fun _ => rfl), ?_⟩
  intro N Wn Gn i hW hiN
  have hW1 : (1 : ℚ) ≤ (Wn : ℚ) := by exact_mod_cast hW
  have hG0 : (0 : ℚ) ≤ (Gn : ℚ) := by positivity
  refine compute_drop_index_eq _ _ i (by rw [uniformSlots_length]; exact hiN)
    ?_ ?_
  · intro s hs
    rw [uniformSlots_getElem N _ _ i hiN] at hs
    have h2 : ((i : ℚ) * ((Wn : ℚ) + (Gn : ℚ)), (Wn : ℚ)) = s :=
      Option.some.inj hs
    subst h2
    show (i : ℚ) * ((Wn : ℚ) + (Gn : ℚ)) + (Wn : ℚ) / 2 - 1 <
      (i : ℚ) * ((Wn : ℚ) + (Gn : ℚ)) + (Wn : ℚ) / 2
    linarith
  · intro j s hj hs
    rw [uniformSlots_getElem N _ _ j (by omega)] at hs
    have h2 : ((j : ℚ) * ((Wn : ℚ) + (Gn : ℚ)), (Wn : ℚ)) = s :=
      Option.some.inj hs
    subst h2
    show ¬ (i : ℚ) * ((Wn : ℚ) + (Gn : ℚ)) + (Wn : ℚ) / 2 - 1 <
      (j : ℚ) * ((Wn : ℚ) + (Gn : ℚ)) + (Wn : ℚ) / 2
    have h3 : (1 : ℚ) ≤ (i : ℚ) - (j : ℚ) := by
      have : (j : ℚ) + 1 ≤ (i : ℚ) := by exact_mod_cast hj
      linarith
    have h4 : (1 : ℚ) ≤ (Wn : ℚ) + (Gn : ℚ) := by linarith
    have h5 : (1 : ℚ) * 1 ≤ ((i : ℚ) - (j : ℚ)) * ((Wn : ℚ) + (Gn : ℚ)) :=
      mul_le_mul h3 h4 (by norm_num) (by linarith)
    have h6 : ((i : ℚ) - (j : ℚ)) * ((Wn : ℚ) + (Gn : ℚ)) =
        (i : ℚ) * ((Wn : ℚ) + (Gn : ℚ)) - (j : ℚ) * ((Wn : ℚ) + (Gn : ℚ)) := by
      ring
    intro hcon
    rw [h6] at h5
    linarith

/-- Closed instances of C6: a hit on the only slot, a miss left of the result,
the beyond-the-last-slot case, and the uniform-geometry scenario with
`W = 10`, `G = 2`, `i = 1`. -/
theorem c6_drop_index_resolver_witness :
    ((0 : ℚ) < midOf ((0 : ℚ), (10 : ℚ))) ∧
    (¬ (20 : ℚ) < midOf ((0 : ℚ), (10 : ℚ))) ∧
    (compute_drop_index [((0 : ℚ), (10 : ℚ))] 20 =
      ([((0 : ℚ), (10 : ℚ))] : List (ℚ × ℚ)).length) ∧
    (compute_drop_index (uniformSlots 2 (10 : ℚ) (2 : ℚ))
      ((1 : ℚ) * ((10 : ℚ) + (2 : ℚ)) + (10 : ℚ) / 2 - 1) = 1) := by
  have hc1 : compute_drop_index [((0 : ℚ), (10 : ℚ))] 0 = 0 := by
    rw [compute_drop_index_cons, if_pos (by norm_num)]
  have hc2 : compute_drop_index [((0 : ℚ), (10 : ℚ)), ((12 : ℚ), (10 : ℚ))]
      20 = 2 := by
    rw [compute_drop_index_cons, if_neg (by norm_num),
      compute_drop_index_cons, if_neg (by norm_num)]
    rfl
  refine ⟨?_, ?_, ?_, ?_⟩
  · refine c6_drop_index_resolver.2.1 [((0 : ℚ), (10 : ℚ))] 0
      ((0 : ℚ), (10 : ℚ)) ?_
    rw [hc1, List.getElem?_cons_zero]
  · refine c6_drop_index_resolver.2.2.1
      [((0 : ℚ), (10 : ℚ)), ((12 : ℚ), (10 : ℚ))] 20 0 ((0 : ℚ), (10 : ℚ))
      (by rw [List.getElem?_cons_zero]) (by rw [hc2]; omega)
  · refine c6_drop_index_resolver.2.2.2.1 [((0 : ℚ), (10 : ℚ))] 20 ?_
    intro j s hj
    cases j with
    | zero =>
      rw [List.getElem?_cons_zero] at hj
      have h2 : ((0 : ℚ), (10 : ℚ)) = s := Option.some.inj hj
      subst h2
      norm_num [midOf]
    | succ j => simp at hj
  · exact c6_drop_index_resolver.2.2.2.2.2 2 10 2 1 (by decide) (by decide)

/-! ### Claims C7 and C8: export -/

/-- Models the `PageItem` dataclass fields that export reads: the source
document path, the 0-based page index within it, and the include flag (the
value of `include_var`).  The thumbnail images are UI resources with no
logic and are not modelled. -/
structure PageItem where
  source_path : String
  page_index : ℕ
  included : Bool
deriving DecidableEq

/-- Models the page-collecting loop of `_export_pdf`: walk the collection in
order, skip items whose include flag is off, and add each kept page to the
writer as its (source, page-number) pair. -/
def addIncludedPages : List PageItem → List (String × ℕ)
  | [] => []
  | item :: rest =>
    if item.included then
      (item.source_path, item.page_index) :: addIncludedPages rest
    else addIncludedPages rest

/-- Models `_export_pdf`: build the included-page list; if it is empty, raise
`RuntimeError` (modelled as `Except.error`) BEFORE the output file is opened —
nothing is written and no page reaches the assembler; otherwise write exactly
the built list. -/
def export_pdf (pages : List PageItem) : Except String (List (String × ℕ)) :=
  let ws := addIncludedPages pages
  if ws.length = 0 then Except.error "No pages selected for export."
  else Except.ok ws

theorem addIncludedPages_cons (item : PageItem) (rest : List PageItem) :
    addIncludedPages (item :: rest) =
      if item.included then
        (item.source_path, item.page_index) :: addIncludedPages rest
      else addIncludedPages rest := rfl

/-- C7: export builds the ordered list obtained by filtering the collection to
the items whose include flag is true, preserving collection order, and mapping
each to its (source, page-number) pair; on the example collection
`[(docX, 0), (docX, 1), (docY, 0)]` with `included = [true, false, true]` the
output is `[(docX, 0), (docY, 0)]`. -/
theorem c7_assembly_build :
    (∀ pages : List PageItem,
      addIncludedPages pages =
        (pages.filter fun p => p.included).map
          fun p => (p.source_path, p.page_index)) ∧
    export_pdf [⟨"docX", 0, true⟩, ⟨"docX", 1, false⟩, ⟨"docY", 0, true⟩] =
      Except.ok [("docX", 0), ("docY", 0)] := by
  constructor
  · intro pages
    induction pages with
    | nil => rfl
    | cons p rest ih =>
      rw [addIncludedPages_cons, List.filter_cons]
      by_cases hp : p.included = true
      · simp [hp, ih]
      · simp [hp, ih]
  · rfl

/-- C8: if every item of the collection has its include flag off, export fails
with the empty-selection error; in the model the error is returned before any
output value is produced, so nothing reaches the assembler. -/
theorem c8_empty_export_fails (pages : List PageItem)
    (h : ∀ p ∈ pages, p.included = false) :
    export_pdf pages = Except.error "No pages selected for export." := by
  have h1 : ∀ ps : List PageItem, (∀ p ∈ ps, p.included = false) →
      addIncludedPages ps = [] := by
    intro ps
    induction ps with
    | nil => exact fun _ => rfl
    | cons p rest ih =>
      intro h2
      rw [addIncludedPages_cons, h2 p (List.mem_cons_self p rest)]
      simp only [Bool.false_eq_true, if_false]
      exact ih (fun q hq => h2 q (List.mem_cons_of_mem p hq))
  simp only [export_pdf]
  rw [h1 pages h]
  rfl

/-- Closed instance of C8: a one-page collection with the include flag off. -/
theorem c8_empty_export_fails_witness :
    export_pdf [⟨"a", 0, false⟩] =
      Except.error "No pages selected for export." :=
  c8_empty_export_fails [⟨"a", 0, false⟩] (by decide)

end PDFPageEditor
